import Mathlib

set_option maxHeartbeats 1000000

/-!
Verification of the board composition engine of the `schneider_cfi` repository.

The development shallowly embeds three parts of the source:

* `computeTiles` (ContentSelector) from `CommunicationBoardDemo.tsx`:
  profile-driven, category-balanced tile selection;
* `calculateBoardLayout` / `generateAsymmetricSpiralPositions` (LayoutEngine)
  from `NewBoard.tsx`: count → grid geometry and spiral placement order;
* the polling consumer `startPolling` (GenerationJobTracker / BoardComposer glue):
  progress-message de-duplication and index-correlated asset binding.

JavaScript conventions are modelled explicitly: for the string-valued profile
fields and the category filter, the JS code only distinguishes truthiness
(`undefined` and `""` are both falsy) and string equality, so both are
collapsed to `String` with `""` standing for an absent value.  Numeric fields
use `Option Int` because the code tests them with `!= null`.  `Math.floor` of
a division by a positive integer is `Int.fdiv`.
-/

namespace SchneiderCFI

/-- Patient profile, as destructured at the top of `computeTiles`
(`const { age, gender, sector, context } = profile`).  String fields use
`""` for an absent (JS-falsy) value. -/
structure Profile where
  age : Option Int
  gender : String
  sector : String
  context : String
deriving DecidableEq

/-- The ad-hoc `rules` object carried by a tile (`TileItem.rules` in the
source).  `gender`/`genderNot` use `""` for absent, since the code guards
them by truthiness; `sectorIn`/`contextIn` are optional arrays (an empty
array is truthy in JS, hence `Option (List String)`). -/
structure Rules where
  ageMin : Option Int
  ageMax : Option Int
  gender : String
  genderNot : String
  sectorIn : Option (List String)
  contextIn : Option (List String)
deriving DecidableEq

/-- A tile definition from the tile library (`TileItem` in the source). -/
structure TileItem where
  key : String
  label : String
  icon : String
  categories : List String
  rules : Rules
deriving DecidableEq

/-- The eligibility filter applied to each library tile inside `computeTiles`
(the body of `tileLibrary.filter`).  Each conjunct mirrors one
`if (...) return false;` line of the source, including the category-filter
line with its `"הכל"` (All) sentinel. -/
def tileAllowed (p : Profile) (selectedCategory : String) (t : TileItem) : Bool :=
  let r := t.rules
  (match r.ageMin, p.age with
   | some n, some a => decide (n ≤ a)
   | _, _ => true) &&
  (match r.ageMax, p.age with
   | some n, some a => decide (a ≤ n)
   | _, _ => true) &&
  (!(r.gender != "" && p.gender != "" && r.gender != p.gender)) &&
  (!(r.genderNot != "" && p.gender != "" && r.genderNot == p.gender)) &&
  (match r.sectorIn with
   | some l => !(p.sector != "" && !(l.contains p.sector))
   | none => true) &&
  (match r.contextIn with
   | some l => !(p.context != "" && !(l.contains p.context))
   | none => true) &&
  (!(selectedCategory != "" && selectedCategory != "הכל" &&
      !(t.categories.contains selectedCategory)))

/-- Keys of a list of tiles.  The source tracks the same information in the
`picked : Set<string>` — an element is in `picked` exactly when a tile with
that key has been pushed onto `result`. -/
def keysOf (l : List TileItem) : List String := l.map (fun t => t.key)

/-- The `byCat` grouping built in `computeTiles`: the group of category `c`
lists the allowed tiles tagged with `c`, in library order (the JS loop pushes
each allowed tile onto every one of its category buckets, preserving order). -/
def byCatFor (allowed : List TileItem) (c : String) : List TileItem :=
  allowed.filter (fun t => t.categories.contains c)

/-- The push step `if (pool.length) { const t = pool[0]; result.push(t); picked.add(t.key); }`:
push the first element of the pool, if any. -/
def pickFirst (result : List TileItem) : List TileItem → List TileItem
  | [] => result
  | t :: _ => result ++ [t]

/-- One sweep of `for (const c of categoryOrder) { ... }` in the balancing
loop: for each category take the first not-yet-picked tile of its bucket,
breaking out of the sweep as soon as `limit` is reached. -/
def sweepCats (byCat : String → List TileItem) (limit : Nat) :
    List String → List TileItem → List TileItem
  | [], result => result
  | c :: cs, result =>
    let result' :=
      pickFirst result ((byCat c).filter (fun t => !((keysOf result).contains t.key)))
    if limit ≤ result'.length then result' else sweepCats byCat limit cs result'

/-- The outer `while (result.length < Math.min(limit, allowed.length) &&
safety < 500)` loop; `fuel` plays the role of `500 - safety`. -/
def balanceLoop (byCat : String → List TileItem) (categoryOrder : List String)
    (limit target : Nat) : Nat → List TileItem → List TileItem
  | 0, result => result
  | fuel + 1, result =>
    if result.length < target then
      balanceLoop byCat categoryOrder limit target fuel
        (sweepCats byCat limit categoryOrder result)
    else result

/-- The final fill loop `for (const t of allowed) { if (!picked.has(t.key))
... }` that tops the result up to `limit` from the unpicked allowed tiles. -/
def fillRemaining (limit : Nat) : List TileItem → List TileItem → List TileItem
  | [], result => result
  | t :: ts, result =>
    let result' := if (keysOf result).contains t.key then result else result ++ [t]
    if limit ≤ result'.length then result' else fillRemaining limit ts result'

/-- The function `computeTiles` from `CommunicationBoardDemo.tsx` (lines 166–218):
filter the library by profile eligibility and category filter, balance
between categories in `categoryOrder` with a safety cap of 500 sweeps, fill
any remaining slots in library order, and truncate to `limit`. -/
def computeTiles (p : Profile) (limit : Nat) (tileLibrary : List TileItem)
    (categoryOrder : List String) (selectedCategory : String) : List TileItem :=
  let allowed := tileLibrary.filter (tileAllowed p selectedCategory)
  let byCat := byCatFor allowed
  let balanced := balanceLoop byCat categoryOrder limit (min limit allowed.length) 500 []
  let result := if balanced.length < limit then fillRemaining limit allowed balanced else balanced
  result.take limit

/-! ### Selection-loop lemmas

The loops of `computeTiles` only ever append tiles onto `result`, never push
a key twice, never exceed `limit`, and the fill loop tops the result up with
every still-unpicked allowed tile. -/

theorem pickFirst_cases (res : List TileItem) (l : List TileItem) :
    pickFirst res l = res ∨ ∃ t, t ∈ l ∧ pickFirst res l = res ++ [t] := by
  cases l with
  | nil => exact Or.inl rfl
  | cons t rest => exact Or.inr ⟨t, List.mem_cons_self .., rfl⟩

/-- Appending a tile with a fresh key keeps the key list duplicate-free. -/
theorem keys_push_nodup {res : List TileItem} {t : TileItem}
    (hres : (keysOf res).Nodup) (hfresh : t.key ∉ keysOf res) :
    (keysOf (res ++ [t])).Nodup := by
  simp only [keysOf, List.map_append, List.map_cons, List.map_nil]
  refine hres.append (List.nodup_singleton _) ?_
  intro a ha hb
  rcases List.mem_singleton.1 hb with rfl
  exact hfresh ha

theorem sweepCats_append (byCat : String → List TileItem) (limit : Nat) :
    ∀ (cats : List String) (res : List TileItem),
      ∃ tl, sweepCats byCat limit cats res = res ++ tl := by
  intro cats
  induction cats with
  | nil => exact fun res => ⟨[], by simp [sweepCats]⟩
  | cons c cs ih =>
    intro res
    simp only [sweepCats]
    rcases pickFirst_cases res ((byCat c).filter (fun t => !((keysOf res).contains t.key))) with
      h | ⟨t, _, h⟩ <;> rw [h] <;> split
    · exact ⟨[], by simp⟩
    · exact ih res
    · exact ⟨[t], rfl⟩
    · obtain ⟨tl, htl⟩ := ih (res ++ [t])
      exact ⟨[t] ++ tl, by simpa using htl⟩

theorem sweepCats_mem (byCat : String → List TileItem) (limit : Nat) :
    ∀ (cats : List String) (res : List TileItem) (t : TileItem),
      t ∈ sweepCats byCat limit cats res → t ∈ res ∨ ∃ c, t ∈ byCat c := by
  intro cats
  induction cats with
  | nil => exact fun res t h => Or.inl h
  | cons c cs ih =>
    intro res t
    simp only [sweepCats]
    have hstep : ∀ u, u ∈ pickFirst res ((byCat c).filter (fun t => !((keysOf res).contains t.key))) →
        u ∈ res ∨ ∃ c', u ∈ byCat c' := by
      intro u hu
      rcases pickFirst_cases res ((byCat c).filter (fun t => !((keysOf res).contains t.key))) with
        h | ⟨v, hv, h⟩
      · rw [h] at hu; exact Or.inl hu
      · rw [h] at hu
        rcases List.mem_append.1 hu with hu | hu
        · exact Or.inl hu
        · rcases List.mem_singleton.1 hu with rfl
          exact Or.inr ⟨c, List.mem_of_mem_filter hv⟩
    split
    · exact hstep t
    · intro ht
      rcases ih _ t ht with h | h
      · exact hstep t h
      · exact Or.inr h

/-- Any tile drawn from a `!picked.has(t.key)` pool has a fresh key. -/
theorem pool_head_fresh {res : List TileItem} {l : List TileItem} {t : TileItem}
    (ht : t ∈ l.filter (fun t => !((keysOf res).contains t.key))) :
    t.key ∉ keysOf res := by
  have h2 := List.of_mem_filter ht
  simpa using h2

theorem pickFirst_nodup (res : List TileItem) (l : List TileItem)
    (hres : (keysOf res).Nodup) :
    (keysOf (pickFirst res (l.filter (fun t => !((keysOf res).contains t.key))))).Nodup := by
  rcases hp : l.filter (fun t => !((keysOf res).contains t.key)) with _ | ⟨t, rest⟩
  · rw [hp]
    exact hres
  · have ht : t ∈ l.filter (fun t => !((keysOf res).contains t.key)) := by
      rw [hp]; exact List.mem_cons_self ..
    rw [hp]
    exact keys_push_nodup hres (pool_head_fresh ht)

theorem sweepCats_nodup (byCat : String → List TileItem) (limit : Nat) :
    ∀ (cats : List String) (res : List TileItem),
      (keysOf res).Nodup → (keysOf (sweepCats byCat limit cats res)).Nodup := by
  intro cats
  induction cats with
  | nil => exact fun res h => h
  | cons c cs ih =>
    intro res hres
    simp only [sweepCats]
    split
    · exact pickFirst_nodup res (byCat c) hres
    · exact ih _ (pickFirst_nodup res (byCat c) hres)

theorem sweepCats_len_le (byCat : String → List TileItem) (limit : Nat) :
    ∀ (cats : List String) (res : List TileItem),
      res.length < limit → (sweepCats byCat limit cats res).length ≤ limit := by
  intro cats
  induction cats with
  | nil => exact fun res h => Nat.le_of_lt h
  | cons c cs ih =>
    intro res hres
    simp only [sweepCats]
    have hlen : (pickFirst res
        ((byCat c).filter (fun t => !((keysOf res).contains t.key)))).length ≤ res.length + 1 := by
      rcases pickFirst_cases res ((byCat c).filter (fun t => !((keysOf res).contains t.key))) with
        h | ⟨t, _, h⟩ <;> rw [h] <;> simp
    split
    · omega
    · rename_i hlt
      exact ih _ (by omega)

theorem balanceLoop_mem (byCat : String → List TileItem) (categoryOrder : List String)
    (limit target : Nat) :
    ∀ (fuel : Nat) (res : List TileItem) (t : TileItem),
      t ∈ balanceLoop byCat categoryOrder limit target fuel res →
      t ∈ res ∨ ∃ c, t ∈ byCat c := by
  intro fuel
  induction fuel with
  | zero => exact fun res t h => Or.inl h
  | succ fuel ih =>
    intro res t
    simp only [balanceLoop]
    split
    · intro ht
      rcases ih _ t ht with h | h
      · exact sweepCats_mem byCat limit categoryOrder res t h
      · exact Or.inr h
    · exact fun h => Or.inl h

theorem balanceLoop_nodup (byCat : String → List TileItem) (categoryOrder : List String)
    (limit target : Nat) :
    ∀ (fuel : Nat) (res : List TileItem),
      (keysOf res).Nodup →
      (keysOf (balanceLoop byCat categoryOrder limit target fuel res)).Nodup := by
  intro fuel
  induction fuel with
  | zero => exact fun res h => h
  | succ fuel ih =>
    intro res hres
    simp only [balanceLoop]
    split
    · exact ih _ (sweepCats_nodup byCat limit categoryOrder res hres)
    · exact hres

theorem balanceLoop_len_le (byCat : String → List TileItem) (categoryOrder : List String)
    (limit target : Nat) (htarget : target ≤ limit) :
    ∀ (fuel : Nat) (res : List TileItem),
      res.length ≤ limit →
      (balanceLoop byCat categoryOrder limit target fuel res).length ≤ limit := by
  intro fuel
  induction fuel with
  | zero => exact fun res h => h
  | succ fuel ih =>
    intro res hres
    simp only [balanceLoop]
    split
    · rename_i hlt
      exact ih _ (sweepCats_len_le byCat limit categoryOrder res (by omega))
    · exact hres

theorem fillRemaining_append (limit : Nat) :
    ∀ (ts res : List TileItem), ∃ tl, fillRemaining limit ts res = res ++ tl := by
  intro ts
  induction ts with
  | nil => exact fun res => ⟨[], by simp [fillRemaining]⟩
  | cons t ts ih =>
    intro res
    simp only [fillRemaining]
    split <;> rename_i hin
    all_goals split
    · exact ⟨[], by simp⟩
    · exact ih res
    · exact ⟨[t], rfl⟩
    · obtain ⟨tl, htl⟩ := ih (res ++ [t])
      exact ⟨[t] ++ tl, by simpa using htl⟩

theorem fillRemaining_mem (limit : Nat) :
    ∀ (ts res : List TileItem) (t : TileItem),
      t ∈ fillRemaining limit ts res → t ∈ res ∨ t ∈ ts := by
  intro ts
  induction ts with
  | nil => exact fun res t h => Or.inl h
  | cons u ts ih =>
    intro res t
    simp only [fillRemaining]
    split <;> split
    · exact fun h => Or.inl h
    · intro ht
      rcases ih _ t ht with h | h
      · exact Or.inl h
      · exact Or.inr (List.mem_cons_of_mem _ h)
    · intro ht
      rcases List.mem_append.1 ht with h | h
      · exact Or.inl h
      · rcases List.mem_singleton.1 h with rfl
        exact Or.inr (List.mem_cons_self ..)
    · intro ht
      rcases ih _ t ht with h | h
      · rcases List.mem_append.1 h with h | h
        · exact Or.inl h
        · rcases List.mem_singleton.1 h with rfl
          exact Or.inr (List.mem_cons_self ..)
      · exact Or.inr (List.mem_cons_of_mem _ h)

theorem fillRemaining_nodup (limit : Nat) :
    ∀ (ts res : List TileItem),
      (keysOf res).Nodup → (keysOf (fillRemaining limit ts res)).Nodup := by
  intro ts
  induction ts with
  | nil => exact fun res h => h
  | cons t ts ih =>
    intro res hres
    simp only [fillRemaining]
    split
    · split
      · exact hres
      · exact ih _ hres
    · rename_i hfresh
      have hfresh' : t.key ∉ keysOf res := by simpa using hfresh
      split
      · exact keys_push_nodup hres hfresh'
      · exact ih _ (keys_push_nodup hres hfresh')

theorem fillRemaining_len_le (limit : Nat) :
    ∀ (ts res : List TileItem),
      res.length < limit → (fillRemaining limit ts res).length ≤ limit := by
  intro ts
  induction ts with
  | nil => exact fun res h => Nat.le_of_lt h
  | cons t ts ih =>
    intro res hres
    simp only [fillRemaining]
    split
    · split
      · exact Nat.le_of_lt hres
      · exact ih _ hres
    · split
      · simpa using hres
      · rename_i h
        refine ih _ ?_
        simp only [List.length_append, List.length_singleton] at h ⊢
        omega

theorem fillRemaining_complete (limit : Nat) :
    ∀ (ts res : List TileItem),
      limit ≤ (fillRemaining limit ts res).length ∨
        ∀ t ∈ ts, t.key ∈ keysOf (fillRemaining limit ts res) := by
  intro ts
  induction ts with
  | nil => exact fun res => Or.inr (fun t h => absurd h (List.not_mem_nil t))
  | cons t ts ih =>
    intro res
    simp only [fillRemaining]
    split
    · rename_i hin
      have hkey : t.key ∈ keysOf res := by simpa using hin
      split
      · rename_i hstop
        exact Or.inl hstop
      · rcases ih res with h | h
        · exact Or.inl h
        · refine Or.inr fun u hu => ?_
          rcases List.mem_cons.1 hu with rfl | hu
          · obtain ⟨tl, htl⟩ := fillRemaining_append limit ts res
            rw [htl]
            simp only [keysOf, List.map_append, List.mem_append]
            exact Or.inl hkey
          · exact h u hu
    · split
      · rename_i hstop
        exact Or.inl hstop
      · rcases ih (res ++ [t]) with h | h
        · exact Or.inl h
        · obtain ⟨tl, htl⟩ := fillRemaining_append limit ts (res ++ [t])
          refine Or.inr fun u hu => ?_
          rcases List.mem_cons.1 hu with rfl | hu
          · rw [htl]
            simp [keysOf]
          · exact h u hu

/-- A duplicate-free list injects into any list containing it. -/
theorem nodup_subset_length {α : Type} [DecidableEq α] {l₁ l₂ : List α}
    (h : l₁.Nodup) (hs : l₁ ⊆ l₂) : l₁.length ≤ l₂.length :=
  (List.subperm_of_subset h hs).length_le

/-- Any selection result that never repeats a key, stays inside the eligible
pool, never exceeds the limit, and — unless it already hit the limit —
contains every eligible key, has exactly `min limit |pool|` elements after
the final `slice(0, limit)`. -/
theorem result_spec {allowed result : List TileItem} (limit : Nat)
    (hnodup : (keysOf result).Nodup)
    (hmem : ∀ t ∈ result, t ∈ allowed)
    (hlen : result.length ≤ limit)
    (hlow : limit ≤ result.length ∨ ∀ t ∈ allowed, t.key ∈ keysOf result)
    (hak : (keysOf allowed).Nodup) :
    (result.take limit).length = min limit allowed.length ∧
      (keysOf (result.take limit)).Nodup := by
  have hsub : keysOf result ⊆ keysOf allowed := by
    intro k hk
    rcases List.mem_map.1 hk with ⟨t, ht, rfl⟩
    exact List.mem_map_of_mem _ (hmem t ht)
  have hupper : result.length ≤ allowed.length := by
    have := nodup_subset_length hnodup hsub
    simpa [keysOf] using this
  have hlower : min limit allowed.length ≤ result.length := by
    rcases hlow with h | h
    · omega
    · have hsub' : keysOf allowed ⊆ keysOf result := by
        intro k hk
        rcases List.mem_map.1 hk with ⟨t, ht, rfl⟩
        exact h t ht
      have := nodup_subset_length hak hsub'
      simp only [keysOf, List.length_map] at this
      omega
  constructor
  · simp only [List.length_take]
    omega
  · have : keysOf (result.take limit) = (keysOf result).take limit := by
      simp [keysOf]
    rw [this]
    exact (List.take_sublist _ _).nodup hnodup

/-- Claim C1.  For every profile, tile library (with the data model's unique
keys), category order, category filter and limit, `computeTiles` returns a
list of length exactly `min limit |eligible pool|` with pairwise-distinct
keys; in particular an empty pool or `limit = 0` yields `[]`.  (The Lean
embedding is total, mirroring that the source never throws.) -/
theorem computeTiles_min_length_nodup (p : Profile) (limit : Nat)
    (tileLibrary : List TileItem) (categoryOrder : List String) (selectedCategory : String)
    (hkeys : (keysOf tileLibrary).Nodup) :
    (computeTiles p limit tileLibrary categoryOrder selectedCategory).length =
      min limit (tileLibrary.filter (tileAllowed p selectedCategory)).length ∧
    (keysOf (computeTiles p limit tileLibrary categoryOrder selectedCategory)).Nodup := by
  have hak : (keysOf (tileLibrary.filter (tileAllowed p selectedCategory))).Nodup := by
    have hsub := (List.filter_sublist (p := tileAllowed p selectedCategory) tileLibrary).map
      (fun t => t.key)
    exact hsub.nodup hkeys
  have hred : computeTiles p limit tileLibrary categoryOrder selectedCategory =
      (if (balanceLoop (byCatFor (tileLibrary.filter (tileAllowed p selectedCategory)))
            categoryOrder limit
            (min limit (tileLibrary.filter (tileAllowed p selectedCategory)).length) 500 []).length
          < limit
       then fillRemaining limit (tileLibrary.filter (tileAllowed p selectedCategory))
            (balanceLoop (byCatFor (tileLibrary.filter (tileAllowed p selectedCategory)))
              categoryOrder limit
              (min limit (tileLibrary.filter (tileAllowed p selectedCategory)).length) 500 [])
       else balanceLoop (byCatFor (tileLibrary.filter (tileAllowed p selectedCategory)))
            categoryOrder limit
            (min limit (tileLibrary.filter (tileAllowed p selectedCategory)).length) 500 []).take
        limit := rfl
  rw [hred]
  set A := tileLibrary.filter (tileAllowed p selectedCategory) with hA
  set bal := balanceLoop (byCatFor A) categoryOrder limit (min limit A.length) 500 [] with hbal
  have hbn : (keysOf bal).Nodup := by
    rw [hbal]
    exact balanceLoop_nodup _ _ _ _ 500 [] (by simp [keysOf])
  have hbm : ∀ t ∈ bal, t ∈ A := by
    intro t ht
    rw [hbal] at ht
    rcases balanceLoop_mem _ _ _ _ 500 [] t ht with h | ⟨c, hc⟩
    · exact absurd h (List.not_mem_nil t)
    · exact List.mem_of_mem_filter hc
  have hbl : bal.length ≤ limit := by
    rw [hbal]
    exact balanceLoop_len_le _ _ _ _ (Nat.min_le_left _ _) 500 [] (by simp)
  by_cases hc : bal.length < limit
  · rw [if_pos hc]
    refine result_spec limit (fillRemaining_nodup limit A bal hbn) ?_
      (fillRemaining_len_le limit A bal hc) ?_ hak
    · intro t ht
      rcases fillRemaining_mem limit A bal t ht with h | h
      · exact hbm t h
      · exact h
    · rcases fillRemaining_complete limit A bal with h | h
      · exact Or.inl h
      · exact Or.inr h
  · rw [if_neg hc]
    exact result_spec limit hbn hbm hbl (Or.inl (by omega)) hak

/-- Concrete three-tile library used to witness C1. -/
def c1Lib : List TileItem :=
  [⟨"לאכול", "לאכול", "Utensils", ["צרכים בסיסיים"], ⟨none, none, "", "", none, none⟩⟩,
   ⟨"תפילה", "תפילה", "StarOfDavid", ["דת"], ⟨some 9, none, "", "אישה", some ["חרדי", "דתי"], none⟩⟩,
   ⟨"לשתות", "לשתות", "CupSoda", ["צרכים בסיסיים"], ⟨none, none, "", "", none, none⟩⟩]

/-- Concrete profile used to witness C1. -/
def c1Profile : Profile := ⟨some 15, "בן", "חרדי", "מחלקה"⟩

/-- Witness for C1: at a concrete profile, three-tile library, category
order and limit 2, the hypotheses of `computeTiles_min_length_nodup` hold
and its conclusion evaluates. -/
theorem computeTiles_min_length_nodup_witness :
    (keysOf c1Lib).Nodup ∧
    ((computeTiles c1Profile 2 c1Lib ["צרכים בסיסיים", "דת"] "").length =
        min 2 ((c1Lib.filter (tileAllowed c1Profile "")).length) ∧
      (keysOf (computeTiles c1Profile 2 c1Lib ["צרכים בסיסיים", "דת"] "")).Nodup) :=
  ⟨by decide,
   computeTiles_min_length_nodup c1Profile 2 c1Lib ["צרכים בסיסיים", "דת"] "" (by decide)⟩

/-! ### C5: eligibility as a constraint interpreter -/

/-- The spec's tagged constraint variants (§3 of the spec). -/
inductive Constraint where
  | ageMin (n : Int)
  | ageMax (n : Int)
  | genderEquals (g : String)
  | genderExcludes (g : String)
  | sectorIn (l : List String)
  | contextIn (l : List String)
deriving DecidableEq

/-- The typed constraints a tile's `rules` object carries.  A rule field
yields a constraint exactly when the JS guard treats it as present:
`!= null` for the numeric fields, truthiness for the string fields, and any
array (empty included) for the set fields. -/
def constraintsOf (r : Rules) : List Constraint :=
  (match r.ageMin with | some n => [Constraint.ageMin n] | none => []) ++
  (match r.ageMax with | some n => [Constraint.ageMax n] | none => []) ++
  (if r.gender != "" then [Constraint.genderEquals r.gender] else []) ++
  (if r.genderNot != "" then [Constraint.genderExcludes r.genderNot] else []) ++
  (match r.sectorIn with | some l => [Constraint.sectorIn l] | none => []) ++
  (match r.contextIn with | some l => [Constraint.contextIn l] | none => [])

/-- Modelled from the spec: one constraint is satisfied by a profile, with
open/permissive matching — an attribute absent from the profile (here the JS
falsy `""`/`none`) satisfies every constraint on it, and `ageMin` is an
inclusive lower bound. -/
def satisfies (p : Profile) : Constraint → Bool
  | .ageMin n => match p.age with | some a => decide (n ≤ a) | none => true
  | .ageMax n => match p.age with | some a => decide (a ≤ n) | none => true
  | .genderEquals g => p.gender == "" || g == p.gender
  | .genderExcludes g => p.gender == "" || g != p.gender
  | .sectorIn l => p.sector == "" || l.contains p.sector
  | .contextIn l => p.context == "" || l.contains p.context

/-- A tile used in the C5 boundary scenario: `AgeMin(13)` and nothing else. -/
def ageBoundTile : TileItem :=
  ⟨"חדר כושר", "להתאמן", "Activity", ["יומיומי"], ⟨some 13, none, "", "", none, none⟩⟩

/-- Claim C5.  Eligibility is an open/permissive constraint interpreter: a tile
passes the filter (with no category filter) iff every constraint it carries
is satisfied, where constraints on absent profile attributes are vacuously
satisfied; and the `AgeMin` bound is inclusive — an `AgeMin(13)` tile is
absent from the selection output at age 12 and present at age 13. -/
theorem tileAllowed_permissive_and_inclusive :
    (∀ (p : Profile) (t : TileItem),
      tileAllowed p "" t = (constraintsOf t.rules).all (satisfies p)) ∧
    ageBoundTile ∉ computeTiles ⟨some 12, "", "", ""⟩ 10 [ageBoundTile] ["יומיומי"] "" ∧
    ageBoundTile ∈ computeTiles ⟨some 13, "", "", ""⟩ 10 [ageBoundTile] ["יומיומי"] "" := by
  refine ⟨?_, by decide, by decide⟩
  intro p t
  obtain ⟨k, lb, ic, cats, am, ax, g, gn, si, ci⟩ := t
  show (_ && _ && _ && _ && _ && _ && _ : Bool) = _
  simp only [constraintsOf, List.all_append]
  have h1 : (match am, p.age with
      | some n, some a => decide (n ≤ a)
      | _, _ => true) =
      (match am with | some n => [Constraint.ageMin n] | none => []).all (satisfies p) := by
    cases am <;> cases hp : p.age <;> simp [satisfies, hp]
  have h2 : (match ax, p.age with
      | some n, some a => decide (a ≤ n)
      | _, _ => true) =
      (match ax with | some n => [Constraint.ageMax n] | none => []).all (satisfies p) := by
    cases ax <;> cases hp : p.age <;> simp [satisfies, hp]
  have h3 : (!(g != "" && p.gender != "" && g != p.gender)) =
      (if g != "" then [Constraint.genderEquals g] else []).all (satisfies p) := by
    by_cases hg : g = "" <;> rw [Bool.eq_iff_iff] <;> simp [satisfies, hg]
  have h4 : (!(gn != "" && p.gender != "" && gn == p.gender)) =
      (if gn != "" then [Constraint.genderExcludes gn] else []).all (satisfies p) := by
    by_cases hg : gn = "" <;> rw [Bool.eq_iff_iff] <;> simp [satisfies, hg]
  have h5 : (match si with
      | some l => !(p.sector != "" && !(l.contains p.sector))
      | none => true) =
      (match si with | some l => [Constraint.sectorIn l] | none => []).all (satisfies p) := by
    cases si <;> rw [Bool.eq_iff_iff] <;> simp [satisfies]
  have h6 : (match ci with
      | some l => !(p.context != "" && !(l.contains p.context))
      | none => true) =
      (match ci with | some l => [Constraint.contextIn l] | none => []).all (satisfies p) := by
    cases ci <;> rw [Bool.eq_iff_iff] <;> simp [satisfies]
  rw [h1, h2, h3, h4, h5, h6]
  simp

/-! ### C10: the "הכל" (All) category sentinel is the identity filter -/

/-- Claim C10.  Selecting the category `"הכל"` ("All") yields exactly the same
tile sequence as passing no category filter at all (modelled by the JS-falsy
`""`), for every profile, limit, library and category order. -/
theorem computeTiles_all_sentinel (p : Profile) (limit : Nat)
    (tileLibrary : List TileItem) (categoryOrder : List String) :
    computeTiles p limit tileLibrary categoryOrder "הכל" =
      computeTiles p limit tileLibrary categoryOrder "" := by
  have h : tileLibrary.filter (tileAllowed p "הכל") = tileLibrary.filter (tileAllowed p "") := by
    apply List.filter_congr
    intro t ht
    rw [Bool.eq_iff_iff]
    simp [tileAllowed]
  simp only [computeTiles, h]

/-! ### LayoutEngine: `calculateBoardLayout` and the spiral fill
(`NewBoard.tsx`, lines 26–160) -/

/-- One guarded push sequence: `if (positions.length < count)
positions.push(q);` for each candidate in turn.  The `for` loops of the
source that carry `positions.length < count` in their loop condition stop
early instead of skipping, which produces the same list. -/
def pushWithin (count : Nat) (ps : List (Nat × Nat)) (cand : List (Nat × Nat)) :
    List (Nat × Nat) :=
  cand.foldl (fun acc q => if acc.length < count then acc ++ [q] else acc) ps

/-- Phase 1 of `generateAsymmetricSpiralPositions`: the four corners
top-left, top-right, bottom-right, bottom-left, each pushed under the guard
`positions.length < count && corner[0] < rows && corner[1] < cols`. -/
def pushCorners (rows cols count : Nat) (ps : List (Nat × Nat)) : List (Nat × Nat) :=
  [(0, 0), (0, cols - 1), (rows - 1, cols - 1), (rows - 1, 0)].foldl
    (fun acc q => if acc.length < count ∧ q.1 < rows ∧ q.2 < cols then acc ++ [q] else acc) ps

/-- Phase 2 candidate cells: the outer-ring edges excluding corners, in the
source's order — top (left→right), right (top→bottom), bottom (right→left),
left (bottom→top). -/
def outerEdgeCandidates (rows cols : Nat) : List (Nat × Nat) :=
  ((List.range (cols - 2)).map (fun i => ((0 : Nat), 1 + i))) ++
  ((List.range (rows - 2)).map (fun i => (1 + i, cols - 1))) ++
  ((List.range (cols - 2)).map (fun i => (rows - 1, cols - 2 - i))) ++
  ((List.range (rows - 2)).map (fun i => (rows - 2 - i, (0 : Nat))))

/-- The candidate cells of one phase-3 ring at depth `layer`: top inner edge,
right inner edge, bottom inner edge (guarded by `endRow > startRow`), left
inner edge (guarded by `endCol > startCol`). -/
def ringCandidates (rows cols layer : Nat) : List (Nat × Nat) :=
  let startRow := layer
  let endRow := rows - layer - 1
  let startCol := layer
  let endCol := cols - layer - 1
  ((List.range (endCol + 1 - startCol)).map (fun i => (startRow, startCol + i))) ++
  ((List.range (endRow - startRow)).map (fun i => (startRow + 1 + i, endCol))) ++
  (if startRow < endRow then
    (List.range (endCol - startCol)).map (fun i => (endRow, endCol - 1 - i))
  else []) ++
  (if startCol < endCol then
    (List.range (endRow - 1 - startRow)).map (fun i => (endRow - 1 - i, startCol))
  else [])

/-- Phase 3: `while (positions.length < count && layer < min(rows,cols)/2)`
with the `if (startRow > endRow || startCol > endCol) break;` guard
(`layer < m/2` over JS numbers is `2*layer < m` over integers).  `fuel`
bounds the recursion; as `layer` grows by one per iteration and the loop
condition fails once `2*layer ≥ min rows cols`, an initial fuel of
`min rows cols` is never exhausted before the condition fails, so the
embedding computes the source's fixpoint. -/
def spiralLoop (rows cols count : Nat) : Nat → Nat → List (Nat × Nat) → List (Nat × Nat)
  | _, 0, ps => ps
  | layer, fuel + 1, ps =>
    if ps.length < count ∧ 2 * layer < min rows cols then
      if rows - layer - 1 < layer ∨ cols - layer - 1 < layer then ps
      else
        spiralLoop rows cols count (layer + 1) fuel
          (pushWithin count ps (ringCandidates rows cols layer))
    else ps

/-- The function `generateAsymmetricSpiralPositions(rows, cols, count)` from
`NewBoard.tsx` (lines 84–160): corners, then outer edges, then inner rings,
stopping as soon as `count` positions are placed. -/
def generateAsymmetricSpiralPositions (rows cols count : Nat) : List (Nat × Nat) :=
  spiralLoop rows cols count 1 (min rows cols)
    (pushWithin count (pushCorners rows cols count []) (outerEdgeCandidates rows cols))

/-- The grid-dimension threshold table of `calculateBoardLayout`
(`count ≤ 4 → 2×2; ≤ 6 → 3×2; ≤ 9 → 3×3; ≤ 12 → 4×3; ≤ 16 → 4×4; else
5 × Math.ceil(count/5)`), returned as `(cols, rows)`.  For a natural
`count`, `Math.ceil(count/5) = (count + 4) / 5`. -/
def gridDims (count : Nat) : Nat × Nat :=
  if count ≤ 4 then (2, 2)
  else if count ≤ 6 then (3, 2)
  else if count ≤ 9 then (3, 3)
  else if count ≤ 12 then (4, 3)
  else if count ≤ 16 then (4, 4)
  else (5, (count + 4) / 5)

/-- The result record of `calculateBoardLayout` (the `gridSize` field of the
source duplicates `cols` and is omitted). -/
structure BoardLayout where
  cols : Nat
  rows : Nat
  baseCellSize : Int
  gap : Nat
  spiralPositions : List (Nat × Nat)
deriving DecidableEq

/-- The function `calculateBoardLayout(count)` from `NewBoard.tsx` (lines 26–81).
`contentWidth = 794 − 64 = 730`, `contentHeight = 1123 − 120 = 1003`.
The gap is `Math.round(min(W,H)/max(cols,rows) * 0.06)` clamped to
`[16, 30]`; with `min(W,H) = 730` the unclamped value is `round(43.8/m)` for
`m = max cols rows`, i.e. `⌊(438 + 5*m) / (10*m)⌋` in exact arithmetic
(`Math.round(x) = ⌊x + 1/2⌋`), and the source's IEEE-754 evaluation agrees
with the exact value for every reachable `m` (no product lands within double
rounding error of a half-integer).  The cell sizes floor divisions by the
positive `cols`/`rows`, hence `Int.fdiv`. -/
def calculateBoardLayout (count : Nat) : BoardLayout :=
  let contentWidth : Int := 794 - 64
  let contentHeight : Int := 1123 - 120
  let dims := gridDims count
  let cols := dims.1
  let rows := dims.2
  let m := max cols rows
  let gapRaw : Nat := (438 + 5 * m) / (10 * m)
  let gap : Nat := max 16 (min 30 gapRaw)
  let availableWidthForCells : Int := contentWidth - (gap * (cols - 1) : Nat)
  let availableHeightForCells : Int := contentHeight - (gap * (rows - 1) : Nat)
  let maxCellWidth : Int := availableWidthForCells.fdiv cols
  let maxCellHeight : Int := availableHeightForCells.fdiv rows
  let baseCellSize : Int := min maxCellWidth maxCellHeight
  { cols := cols, rows := rows, baseCellSize := baseCellSize, gap := gap,
    spiralPositions := generateAsymmetricSpiralPositions rows cols count }

/-- The board renderer (lines 586–595 of `NewBoard.tsx`) uses
`baseCellSize` as the cell width in `gridTemplateColumns`. -/
def cellWidthUsed (L : BoardLayout) : Int := L.baseCellSize

/-- The board renderer uses `baseCellSize` again as the cell height in
`gridTemplateRows`. -/
def cellHeightUsed (L : BoardLayout) : Int := L.baseCellSize

/-! #### The spiral fill as a truncated candidate stream -/

/-- The corner candidates that pass the bounds check, in push order. -/
def cornerCandidates (rows cols : Nat) : List (Nat × Nat) :=
  [(0, 0), (0, cols - 1), (rows - 1, cols - 1), (rows - 1, 0)].filter
    (fun q => decide (q.1 < rows) && decide (q.2 < cols))

/-- The phase-3 candidate stream with the `count` guards stripped. -/
def innerCandidates (rows cols : Nat) : Nat → Nat → List (Nat × Nat)
  | _, 0 => []
  | layer, fuel + 1 =>
    if 2 * layer < min rows cols then
      if rows - layer - 1 < layer ∨ cols - layer - 1 < layer then []
      else ringCandidates rows cols layer ++ innerCandidates rows cols (layer + 1) fuel
    else []

/-- The full candidate stream of the spiral fill; the generated positions
are exactly its first `count` entries (`spiral_eq_take`). -/
def spiralCandidates (rows cols : Nat) : List (Nat × Nat) :=
  cornerCandidates rows cols ++ outerEdgeCandidates rows cols ++
    innerCandidates rows cols 1 (min rows cols)

theorem pushWithin_nil (count : Nat) (ps : List (Nat × Nat)) :
    pushWithin count ps [] = ps := rfl

theorem pushWithin_full (count : Nat) (cand : List (Nat × Nat)) :
    ∀ (ps : List (Nat × Nat)), count ≤ ps.length → pushWithin count ps cand = ps := by
  induction cand with
  | nil => exact fun ps _ => rfl
  | cons q cand ih =>
    intro ps h
    simp only [pushWithin, List.foldl_cons]
    rw [if_neg (by omega)]
    exact ih ps h

theorem pushWithin_eq_take (count : Nat) :
    ∀ (cand ps : List (Nat × Nat)),
      pushWithin count ps cand = ps ++ cand.take (count - ps.length) := by
  intro cand
  induction cand with
  | nil => simp [pushWithin]
  | cons q cand ih =>
    intro ps
    by_cases h : ps.length < count
    · simp only [pushWithin, List.foldl_cons, if_pos h]
      have hrec := ih (ps ++ [q])
      simp only [pushWithin] at hrec
      rw [hrec]
      have hc : count - ps.length = (count - (ps.length + 1)) + 1 := by omega
      rw [hc]
      simp
    · have h0 : count - ps.length = 0 := by omega
      rw [h0]
      simp only [List.take_zero, List.append_nil]
      exact pushWithin_full count _ ps (by omega)

theorem pushCorners_eq (rows cols count : Nat) :
    ∀ ps, pushCorners rows cols count ps = pushWithin count ps (cornerCandidates rows cols) := by
  intro ps
  simp only [pushCorners, cornerCandidates]
  generalize [(0, 0), (0, cols - 1), (rows - 1, cols - 1), (rows - 1, 0)] = cand
  induction cand generalizing ps with
  | nil => rfl
  | cons q cand ih =>
    simp only [List.foldl_cons, List.filter_cons]
    by_cases hb : q.1 < rows ∧ q.2 < cols
    · have hq : (decide (q.1 < rows) && decide (q.2 < cols)) = true := by
        simp [hb.1, hb.2]
      rw [if_pos hq]
      by_cases hl : ps.length < count
      · have hcond : ps.length < count ∧ q.1 < rows ∧ q.2 < cols := ⟨hl, hb⟩
        rw [if_pos hcond, ih (ps ++ [q])]
        simp only [pushWithin, List.foldl_cons, if_pos hl]
      · have hcond : ¬ (ps.length < count ∧ q.1 < rows ∧ q.2 < cols) := by tauto
        rw [if_neg hcond, ih ps]
        simp only [pushWithin, List.foldl_cons, if_neg hl]
    · have hq : ((decide (q.1 < rows) && decide (q.2 < cols)) = true) → False := by
        rcases not_and_or.1 hb with h | h <;> simp [h]
      rw [if_neg hq]
      have hcond : ¬ (ps.length < count ∧ q.1 < rows ∧ q.2 < cols) := by tauto
      rw [if_neg hcond]
      exact ih ps

theorem spiralLoop_eq_take (rows cols count : Nat) :
    ∀ (fuel layer : Nat) (ps : List (Nat × Nat)),
      spiralLoop rows cols count layer fuel ps =
        ps ++ (innerCandidates rows cols layer fuel).take (count - ps.length) := by
  intro fuel
  induction fuel with
  | zero => intro layer ps; simp [spiralLoop, innerCandidates]
  | succ fuel ih =>
    intro layer ps
    simp only [spiralLoop, innerCandidates]
    by_cases h2 : 2 * layer < min rows cols
    · by_cases hbreak : rows - layer - 1 < layer ∨ cols - layer - 1 < layer
      · by_cases hl : ps.length < count
        · rw [if_pos ⟨hl, h2⟩, if_pos hbreak, if_pos h2, if_pos hbreak]
          simp
        · rw [if_neg (by tauto), if_pos h2, if_pos hbreak]
          simp
      · by_cases hl : ps.length < count
        · rw [if_pos ⟨hl, h2⟩, if_neg hbreak, if_pos h2, if_neg hbreak, ih,
            pushWithin_eq_take]
          have hidx : count - (ps ++ (ringCandidates rows cols layer).take
              (count - ps.length)).length =
              (count - ps.length) - (ringCandidates rows cols layer).length := by
            simp only [List.length_append, List.length_take]
            omega
          rw [hidx, List.take_append_eq_append_take, List.append_assoc]
        · rw [if_neg (by tauto), if_pos h2, if_neg hbreak]
          have h0 : count - ps.length = 0 := by omega
          rw [h0]
          simp
    · rw [if_neg (by tauto), if_neg h2]
      simp

/-- Chaining guarded pushes is truncation of the concatenated stream. -/
theorem take_chain {α : Type} (count : Nat) (base newCand : List α) :
    base.take count ++ newCand.take (count - (base.take count).length) =
      (base ++ newCand).take count := by
  rw [List.take_append_eq_append_take]
  congr 2
  simp only [List.length_take]
  omega

/-- The spiral fill is exactly the first `count` entries of the candidate
stream: every push in the source is guarded by `positions.length < count`
only, and candidates arrive in a fixed order. -/
theorem spiral_eq_take (rows cols count : Nat) :
    generateAsymmetricSpiralPositions rows cols count =
      (spiralCandidates rows cols).take count := by
  unfold generateAsymmetricSpiralPositions spiralCandidates
  rw [spiralLoop_eq_take, pushWithin_eq_take, pushCorners_eq, pushWithin_eq_take]
  simp only [List.nil_append, List.length_nil, Nat.sub_zero]
  rw [take_chain, take_chain, List.append_assoc]

/-! #### The candidate stream of the 5-column grids

For `count ≥ 17` the layout uses `cols = 5`, `rows = ⌈count/5⌉ ≥ 4` and the
candidate stream must be analysed for unbounded `rows`.  The lemmas below
give its explicit block decomposition for `rows ≥ 5` and show it enumerates
every cell of the grid exactly once. -/

theorem corner_candidates_eq {rows cols : Nat} (hr : 1 ≤ rows) (hc : 1 ≤ cols) :
    cornerCandidates rows cols =
      [(0, 0), (0, cols - 1), (rows - 1, cols - 1), (rows - 1, 0)] := by
  have h1 : 0 < rows := hr
  have h2 : 0 < cols := hc
  have h3 : rows - 1 < rows := by omega
  have h4 : cols - 1 < cols := by omega
  simp [cornerCandidates, h1, h2, h3, h4]

theorem inner_five {r : Nat} (hr : 5 ≤ r) :
    innerCandidates r 5 1 (min r 5) = ringCandidates r 5 1 ++ ringCandidates r 5 2 := by
  have hmin : min r 5 = 5 := by omega
  rw [hmin]
  simp only [innerCandidates]
  split_ifs <;> first | rfl | (exfalso; omega) | simp

/-- Explicit block decomposition of the candidate stream for a `r × 5` grid,
`r ≥ 5`: corners; outer top/right/bottom/left edges; first inner ring
(top/right/bottom/left); second inner ring (the single remaining column). -/
theorem cands5_eq {r : Nat} (hr : 5 ≤ r) :
    spiralCandidates r 5 =
      (0, 0) ::
        (0, 4) ::
          (r - 1, 4) ::
            (r - 1, 0) ::
              (List.map (fun i => ((0 : Nat), 1 + i)) (List.range 3) ++
                (List.map (fun i => (1 + i, (4 : Nat))) (List.range (r - 2)) ++
                  (List.map (fun i => (r - 1, 3 - i)) (List.range 3) ++
                    (List.map (fun i => (r - (2 + i), (0 : Nat))) (List.range (r - 2)) ++
                      (List.map (fun i => ((1 : Nat), 1 + i)) (List.range 3) ++
                        (List.map (fun i => (2 + i, (3 : Nat))) (List.range (r - 3)) ++
                          (List.map (fun i => (r - 2, 2 - i)) (List.range 2) ++
                            (List.map (fun i => (r - (3 + i), (1 : Nat))) (List.range (r - 4)) ++
                              (List.map (fun i => ((2 : Nat), 2 + i)) (List.range 1) ++
                                List.map (fun i => (3 + i, (2 : Nat)))
                                  (List.range (r - 5))))))))))) := by
  rw [spiralCandidates, corner_candidates_eq (by omega) (by omega), inner_five hr]
  simp [outerEdgeCandidates, ringCandidates, Nat.sub_sub, show (1 : Nat) < r - (1 + 1) by omega]

/-- Horizontal run with increasing column (`(c, a+i)` for `i < n`). -/
theorem ex_run_inc_snd (n c a x y : Nat) :
    (∃ i, i < n ∧ c = x ∧ a + i = y) ↔ (c = x ∧ a ≤ y ∧ y < a + n) := by
  constructor
  · rintro ⟨i, hi, rfl, rfl⟩
    omega
  · rintro ⟨rfl, h1, h2⟩
    exact ⟨y - a, by omega, rfl, by omega⟩

/-- Vertical run with increasing row (`(a+i, c)` for `i < n`). -/
theorem ex_run_inc_fst (n c a x y : Nat) :
    (∃ i, i < n ∧ a + i = x ∧ c = y) ↔ (c = y ∧ a ≤ x ∧ x < a + n) := by
  constructor
  · rintro ⟨i, hi, rfl, rfl⟩
    omega
  · rintro ⟨rfl, h1, h2⟩
    exact ⟨x - a, by omega, by omega, rfl⟩

/-- Horizontal run with decreasing column (`(c, b−i)` for `i < n`). -/
theorem ex_run_dec_snd (n c b x y : Nat) :
    (∃ i, i < n ∧ c = x ∧ b - i = y) ↔ (c = x ∧ 0 < n ∧ b - (n - 1) ≤ y ∧ y ≤ b) := by
  constructor
  · rintro ⟨i, hi, rfl, rfl⟩
    omega
  · rintro ⟨rfl, h0, h1, h2⟩
    exact ⟨b - y, by omega, rfl, by omega⟩

/-- Vertical run with decreasing row (`(b−(a+i), c)` for `i < n`). -/
theorem ex_run_dec_fst (n c b a x y : Nat) :
    (∃ i, i < n ∧ b - (a + i) = x ∧ c = y) ↔
      (c = y ∧ 0 < n ∧ b - (a + (n - 1)) ≤ x ∧ x ≤ b - a) := by
  constructor
  · rintro ⟨i, hi, rfl, rfl⟩
    omega
  · rintro ⟨rfl, h0, h1, h2⟩
    exact ⟨b - a - x, by omega, by omega, rfl⟩

/-- The candidate stream of a `r × 5` grid (`r ≥ 5`) contains a cell iff it
lies in the grid. -/
theorem mem_cands5 {r : Nat} (hr : 5 ≤ r) (p : Nat × Nat) :
    p ∈ spiralCandidates r 5 ↔ (p.1 < r ∧ p.2 < 5) := by
  obtain ⟨x, y⟩ := p
  rw [cands5_eq hr]
  simp only [List.mem_cons, List.mem_append, List.mem_map, List.mem_range, Prod.mk.injEq,
    ex_run_inc_snd, ex_run_inc_fst, ex_run_dec_snd, ex_run_dec_fst]
  constructor
  · intro h
    rcases h with h | h | h | h | h | h | h | h | h | h | h | h | h | h <;> omega
  · rintro ⟨hx, hy⟩
    interval_cases y
    · by_cases hx0 : x = 0
      · exact Or.inl (by omega)
      · by_cases hxr : x = r - 1
        · exact Or.inr (Or.inr (Or.inr (Or.inl (by omega))))
        · exact Or.inr (Or.inr (Or.inr (Or.inr (Or.inr (Or.inr (Or.inr (Or.inl (by omega))))))))
    · by_cases hx0 : x = 0
      · exact Or.inr (Or.inr (Or.inr (Or.inr (Or.inl (by omega)))))
      · by_cases hxr : x = r - 1
        · exact Or.inr (Or.inr (Or.inr (Or.inr (Or.inr (Or.inr (Or.inl (by omega)))))))
        · by_cases hx1 : x = 1
          · exact Or.inr (Or.inr (Or.inr (Or.inr (Or.inr (Or.inr (Or.inr (Or.inr
              (Or.inl (by omega)))))))))
          · by_cases hxr2 : x = r - 2
            · exact Or.inr (Or.inr (Or.inr (Or.inr (Or.inr (Or.inr (Or.inr (Or.inr (Or.inr
                (Or.inr (Or.inl (by omega)))))))))))
            · exact Or.inr (Or.inr (Or.inr (Or.inr (Or.inr (Or.inr (Or.inr (Or.inr (Or.inr
                (Or.inr (Or.inr (Or.inl (by omega))))))))))))
    · by_cases hx0 : x = 0
      · exact Or.inr (Or.inr (Or.inr (Or.inr (Or.inl (by omega)))))
      · by_cases hxr : x = r - 1
        · exact Or.inr (Or.inr (Or.inr (Or.inr (Or.inr (Or.inr (Or.inl (by omega)))))))
        · by_cases hx1 : x = 1
          · exact Or.inr (Or.inr (Or.inr (Or.inr (Or.inr (Or.inr (Or.inr (Or.inr
              (Or.inl (by omega)))))))))
          · by_cases hxr2 : x = r - 2
            · exact Or.inr (Or.inr (Or.inr (Or.inr (Or.inr (Or.inr (Or.inr (Or.inr (Or.inr
                (Or.inr (Or.inl (by omega)))))))))))
            · by_cases hx2 : x = 2
              · exact Or.inr (Or.inr (Or.inr (Or.inr (Or.inr (Or.inr (Or.inr (Or.inr (Or.inr
                  (Or.inr (Or.inr (Or.inr (Or.inl (by omega)))))))))))))
              · exact Or.inr (Or.inr (Or.inr (Or.inr (Or.inr (Or.inr (Or.inr (Or.inr (Or.inr
                  (Or.inr (Or.inr (Or.inr (Or.inr (by omega)))))))))))))
    · by_cases hx0 : x = 0
      · exact Or.inr (Or.inr (Or.inr (Or.inr (Or.inl (by omega)))))
      · by_cases hxr : x = r - 1
        · exact Or.inr (Or.inr (Or.inr (Or.inr (Or.inr (Or.inr (Or.inl (by omega)))))))
        · by_cases hx1 : x = 1
          · exact Or.inr (Or.inr (Or.inr (Or.inr (Or.inr (Or.inr (Or.inr (Or.inr
              (Or.inl (by omega)))))))))
          · exact Or.inr (Or.inr (Or.inr (Or.inr (Or.inr (Or.inr (Or.inr (Or.inr (Or.inr
              (Or.inl (by omega))))))))))
    · by_cases hx0 : x = 0
      · exact Or.inr (Or.inl (by omega))
      · by_cases hxr : x = r - 1
        · exact Or.inr (Or.inr (Or.inl (by omega)))
        · exact Or.inr (Or.inr (Or.inr (Or.inr (Or.inr (Or.inl (by omega))))))

/-- The candidate stream of a `r × 5` grid (`r ≥ 5`) has one entry per cell. -/
theorem len_cands5 {r : Nat} (hr : 5 ≤ r) : (spiralCandidates r 5).length = 5 * r := by
  rw [cands5_eq hr]
  simp only [List.length_cons, List.length_append, List.length_map, List.length_range]
  omega

/-- The candidate stream of a `r × 5` grid (`r ≥ 5`) never repeats a cell:
it has as many entries as the grid has cells and hits every cell. -/
theorem nodup_cands5 {r : Nat} (hr : 5 ≤ r) : (spiralCandidates r 5).Nodup := by
  have hfin : (spiralCandidates r 5).toFinset = (Finset.range r) ×ˢ (Finset.range 5) := by
    ext p
    simp only [List.mem_toFinset, Finset.mem_product, Finset.mem_range]
    exact mem_cands5 hr p
  have hded : (spiralCandidates r 5).dedup.length = (spiralCandidates r 5).length := by
    have h1 := List.card_toFinset (spiralCandidates r 5)
    rw [hfin, Finset.card_product, Finset.card_range, Finset.card_range] at h1
    rw [← h1, len_cands5 hr]
    omega
  have hself : (spiralCandidates r 5).dedup = spiralCandidates r 5 :=
    (List.dedup_sublist _).eq_of_length hded
  exact List.dedup_eq_self.1 hself

/-! #### Projections of `calculateBoardLayout` -/

theorem layout_cols (c : Nat) : (calculateBoardLayout c).cols = (gridDims c).1 := rfl

theorem layout_rows (c : Nat) : (calculateBoardLayout c).rows = (gridDims c).2 := rfl

theorem layout_positions (c : Nat) :
    (calculateBoardLayout c).spiralPositions =
      generateAsymmetricSpiralPositions (gridDims c).2 (gridDims c).1 c := rfl

/-- Every grid the threshold table can choose has at least two rows and
columns, at most five columns, and at least `count` cells. -/
theorem gridDims_bounds (c : Nat) :
    2 ≤ (gridDims c).1 ∧ (gridDims c).1 ≤ 5 ∧ 2 ≤ (gridDims c).2 ∧
      c ≤ (gridDims c).1 * (gridDims c).2 := by
  simp only [gridDims]
  split_ifs <;> simp <;> omega

theorem gridDims_large {c : Nat} (h : 17 ≤ c) : gridDims c = (5, (c + 4) / 5) := by
  simp only [gridDims]
  split_ifs <;> first | omega | rfl

/-! ### C7: the grid-dimension threshold table -/

/-- The threshold table as worded by the spec (§4.2): "count ≤ 4 → 2×2;
≤ 6 → 3×2; ≤ 9 → 3×3; ≤ 12 → 4×3; ≤ 16 → 4×4; else → 5×ceil(count/5)",
as `(cols, rows)`, with `ceil(count/5)` written as `(count + 5 - 1) / 5`. -/
def specGridDims (count : Nat) : Nat × Nat :=
  if count ≤ 4 then (2, 2)
  else if count ≤ 6 then (3, 2)
  else if count ≤ 9 then (3, 3)
  else if count ≤ 12 then (4, 3)
  else if count ≤ 16 then (4, 4)
  else (5, (count + 5 - 1) / 5)

/-- Claim C7.  The dimensions chosen by `calculateBoardLayout` follow the
documented threshold table exactly; in the `count ≥ 17` branch the row count
is genuinely `⌈count/5⌉` (characterised by `5*(rows−1) < count ≤ 5*rows`). -/
theorem layout_threshold_table (c : Nat) :
    ((calculateBoardLayout c).cols, (calculateBoardLayout c).rows) = specGridDims c ∧
    (17 ≤ c → (calculateBoardLayout c).cols = 5 ∧
      5 * ((calculateBoardLayout c).rows - 1) < c ∧ c ≤ 5 * (calculateBoardLayout c).rows) := by
  constructor
  · rw [layout_cols, layout_rows]
    simp only [gridDims, specGridDims]
    split_ifs <;> simp
  · intro h17
    rw [layout_cols, layout_rows, gridDims_large h17]
    refine ⟨rfl, ?_, ?_⟩ <;> simp <;> omega

/-- Witness for C7 at `count = 18` (the unbounded branch) and, through the
first conjunct, at the concrete table entry for 18. -/
theorem layout_threshold_table_witness :
    ((calculateBoardLayout 18).cols, (calculateBoardLayout 18).rows) = specGridDims 18 ∧
    (17 ≤ 18 ∧ (calculateBoardLayout 18).cols = 5 ∧
      5 * ((calculateBoardLayout 18).rows - 1) < 18 ∧ 18 ≤ 5 * (calculateBoardLayout 18).rows) :=
  ⟨(layout_threshold_table 18).1, by decide, (layout_threshold_table 18).2 (by decide)⟩

/-! ### C8: the count = 7 scenario -/

/-- Claim C8.  For `count = 7` the layout is a 3×3 grid whose positions start
with the four corners `(0,0), (0,2), (2,2), (2,0)` and continue with the
top/right/bottom outer-edge cells `(0,1), (1,2), (2,1)`, in that order. -/
theorem layout_count7_scenario :
    (calculateBoardLayout 7).cols = 3 ∧ (calculateBoardLayout 7).rows = 3 ∧
    (calculateBoardLayout 7).spiralPositions =
      [(0, 0), (0, 2), (2, 2), (2, 0), (0, 1), (1, 2), (2, 1)] := by decide

/-! ### C2: the spiral positions enumerate `count` distinct in-bounds cells -/

/-- Claim C2.  For every `count`, the positions computed by
`calculateBoardLayout` have length exactly `count`, are pairwise distinct,
and each `(row, col)` lies within `[0, rows) × [0, cols)` (the lower bounds
are inherent to `Nat`). -/
theorem layout_positions_complete (c : Nat) :
    (calculateBoardLayout c).spiralPositions.length = c ∧
    (calculateBoardLayout c).spiralPositions.Nodup ∧
    ∀ p ∈ (calculateBoardLayout c).spiralPositions,
      p.1 < (calculateBoardLayout c).rows ∧ p.2 < (calculateBoardLayout c).cols := by
  by_cases hc : c < 21
  · have hsmall : ∀ n, n < 21 →
        ((calculateBoardLayout n).spiralPositions.length = n ∧
         (calculateBoardLayout n).spiralPositions.Nodup ∧
         ∀ p ∈ (calculateBoardLayout n).spiralPositions,
           p.1 < (calculateBoardLayout n).rows ∧ p.2 < (calculateBoardLayout n).cols) := by
      decide
    exact hsmall c hc
  · have h17 : 17 ≤ c := by omega
    have hrows : (gridDims c).2 = (c + 4) / 5 := by rw [gridDims_large h17]
    have hcols : (gridDims c).1 = 5 := by rw [gridDims_large h17]
    have hr : 5 ≤ (c + 4) / 5 := by omega
    have hcle : c ≤ 5 * ((c + 4) / 5) := by omega
    have hpos : (calculateBoardLayout c).spiralPositions =
        (spiralCandidates ((c + 4) / 5) 5).take c := by
      rw [layout_positions, hrows, hcols, spiral_eq_take]
    refine ⟨?_, ?_, ?_⟩
    · rw [hpos, List.length_take, len_cands5 hr]
      omega
    · rw [hpos]
      exact (List.take_sublist _ _).nodup (nodup_cands5 hr)
    · intro p hp
      rw [hpos] at hp
      have hmem := (mem_cands5 hr p).1 (List.take_subset _ _ hp)
      rw [layout_rows, layout_cols, hrows, hcols]
      exact hmem

/-! ### C6: corner-first placement -/

/-- Claim C6.  For every `count ≥ 4`, the first four computed positions are the
four grid corners in the fixed traversal order top-left, top-right,
bottom-right, bottom-left. -/
theorem layout_corner_first (c : Nat) (h4 : 4 ≤ c) :
    (calculateBoardLayout c).spiralPositions.take 4 =
      [((0 : Nat), (0 : Nat)), (0, (calculateBoardLayout c).cols - 1),
       ((calculateBoardLayout c).rows - 1, (calculateBoardLayout c).cols - 1),
       ((calculateBoardLayout c).rows - 1, 0)] := by
  obtain ⟨hc2, hc5, hr2, hcell⟩ := gridDims_bounds c
  rw [layout_positions, layout_cols, layout_rows, spiral_eq_take, List.take_take,
    show min 4 c = 4 by omega, spiralCandidates,
    corner_candidates_eq (by omega) (by omega)]
  rw [List.append_assoc, List.take_left' (by rfl)]

/-- Witness for C6 at `count = 4` (a 2×2 grid: the positions are exactly the
four corners). -/
theorem layout_corner_first_witness :
    4 ≤ 4 ∧ (calculateBoardLayout 4).spiralPositions.take 4 =
      [((0 : Nat), (0 : Nat)), (0, (calculateBoardLayout 4).cols - 1),
       ((calculateBoardLayout 4).rows - 1, (calculateBoardLayout 4).cols - 1),
       ((calculateBoardLayout 4).rows - 1, 0)] :=
  ⟨by decide, layout_corner_first 4 (by decide)⟩

/-! ### C9: gap clamp, square cells, and non-overflow -/

/-- Floor division fits maximally: `n * (a.fdiv n)` is the largest multiple
of `n` not exceeding `a`. -/
theorem fdiv_fit (a : Int) (n : Nat) (hn : 0 < n) :
    (n : Int) * (a.fdiv n) ≤ a ∧ a < (n : Int) * (a.fdiv n + 1) := by
  have hn' : (0 : Int) < n := by exact_mod_cast hn
  have h1 := Int.fmod_add_fdiv a n
  have h2 := Int.fmod_nonneg' a hn'
  have h3 := Int.fmod_lt_of_pos a hn'
  constructor
  · linarith
  · have hexp : (n : Int) * (a.fdiv n + 1) = n * a.fdiv n + n := by ring
    linarith

/-- Claim C9.  For every `count`: the gap is clamped into `[16, 30]`; the
renderer uses the single `baseCellSize` for both cell width and cell height
(square cells); the grid never overflows the content box
(`cols·cell + gap·(cols−1) ≤ 730` and `rows·cell + gap·(rows−1) ≤ 1003`);
and the cell size is maximal with that property — one more pixel per cell
would overflow one of the two directions.  The last two parts together say
`baseCellSize` is the floor of the smaller of the per-column and per-row
available space. -/
theorem layout_cell_geometry (c : Nat) :
    (16 ≤ (calculateBoardLayout c).gap ∧ (calculateBoardLayout c).gap ≤ 30) ∧
    cellWidthUsed (calculateBoardLayout c) = cellHeightUsed (calculateBoardLayout c) ∧
    (((calculateBoardLayout c).cols : Int) * (calculateBoardLayout c).baseCellSize +
        ((calculateBoardLayout c).gap * ((calculateBoardLayout c).cols - 1) : Nat) ≤ 730 ∧
     ((calculateBoardLayout c).rows : Int) * (calculateBoardLayout c).baseCellSize +
        ((calculateBoardLayout c).gap * ((calculateBoardLayout c).rows - 1) : Nat) ≤ 1003) ∧
    ((730 : Int) < ((calculateBoardLayout c).cols : Int) *
          ((calculateBoardLayout c).baseCellSize + 1) +
        ((calculateBoardLayout c).gap * ((calculateBoardLayout c).cols - 1) : Nat) ∨
     (1003 : Int) < ((calculateBoardLayout c).rows : Int) *
          ((calculateBoardLayout c).baseCellSize + 1) +
        ((calculateBoardLayout c).gap * ((calculateBoardLayout c).rows - 1) : Nat)) := by
  obtain ⟨hc2, hc5, hr2, _⟩ := gridDims_bounds c
  have hgap : (calculateBoardLayout c).gap =
      max 16 (min 30 ((438 + 5 * max (gridDims c).1 (gridDims c).2) /
        (10 * max (gridDims c).1 (gridDims c).2))) := rfl
  have hcell : (calculateBoardLayout c).baseCellSize =
      min (((730 : Int) -
              ((calculateBoardLayout c).gap * ((gridDims c).1 - 1) : Nat)).fdiv (gridDims c).1)
          (((1003 : Int) -
              ((calculateBoardLayout c).gap * ((gridDims c).2 - 1) : Nat)).fdiv (gridDims c).2) :=
    rfl
  have hwfit := fdiv_fit
    ((730 : Int) - ((calculateBoardLayout c).gap * ((gridDims c).1 - 1) : Nat))
    (gridDims c).1 (by omega)
  have hhfit := fdiv_fit
    ((1003 : Int) - ((calculateBoardLayout c).gap * ((gridDims c).2 - 1) : Nat))
    (gridDims c).2 (by omega)
  have hcolsI : (0 : Int) ≤ ((gridDims c).1 : Int) := by positivity
  have hrowsI : (0 : Int) ≤ ((gridDims c).2 : Int) := by positivity
  rw [layout_cols, layout_rows]
  refine ⟨⟨?_, ?_⟩, rfl, ⟨?_, ?_⟩, ?_⟩
  · rw [hgap]
    exact le_max_left _ _
  · rw [hgap]
    exact max_le (by norm_num) (min_le_left _ _)
  · have hle : (calculateBoardLayout c).baseCellSize ≤
        (((730 : Int) -
          ((calculateBoardLayout c).gap * ((gridDims c).1 - 1) : Nat)).fdiv (gridDims c).1) := by
      rw [hcell]
      exact min_le_left _ _
    have hmul := mul_le_mul_of_nonneg_left hle hcolsI
    linarith [hwfit.1]
  · have hle : (calculateBoardLayout c).baseCellSize ≤
        (((1003 : Int) -
          ((calculateBoardLayout c).gap * ((gridDims c).2 - 1) : Nat)).fdiv (gridDims c).2) := by
      rw [hcell]
      exact min_le_right _ _
    have hmul := mul_le_mul_of_nonneg_left hle hrowsI
    linarith [hhfit.1]
  · rcases le_total
      (((730 : Int) -
          ((calculateBoardLayout c).gap * ((gridDims c).1 - 1) : Nat)).fdiv (gridDims c).1)
      (((1003 : Int) -
          ((calculateBoardLayout c).gap * ((gridDims c).2 - 1) : Nat)).fdiv (gridDims c).2)
      with h | h
    · left
      have hcw : (calculateBoardLayout c).baseCellSize =
          (((730 : Int) -
            ((calculateBoardLayout c).gap * ((gridDims c).1 - 1) : Nat)).fdiv (gridDims c).1) := by
        rw [hcell]
        exact min_eq_left h
      rw [hcw]
      linarith [hwfit.2]
    · right
      have hch : (calculateBoardLayout c).baseCellSize =
          (((1003 : Int) -
            ((calculateBoardLayout c).gap * ((gridDims c).2 - 1) : Nat)).fdiv (gridDims c).2) := by
        rw [hcell]
        exact min_eq_right h
      rw [hch]
      linarith [hhfit.2]

/-! ### GenerationJobTracker consumer (`startPolling`, `NewBoard.tsx`
lines 764–832): progress-log de-duplication and asset binding -/

/-- One chat line (`AgentMessage` in the source): role (`"agent"` or
`"user"`), text, and the ISO timestamp attached on creation. -/
structure AgentMsg where
  role : String
  text : String
  ts : String
deriving DecidableEq

/-- Whether `pat` starts the character list. -/
def startsWithChars : List Char → List Char → Bool
  | [], _ => true
  | _ :: _, [] => false
  | p :: ps, c :: cs => p == c && startsWithChars ps cs

/-- Whether `pat` occurs somewhere in the character list. -/
def containsChars (pat : List Char) : List Char → Bool
  | [] => pat.isEmpty
  | c :: cs => startsWithChars pat (c :: cs) || containsChars pat cs

/-- JS `String.prototype.includes`, on the underlying character lists. -/
def strContains (s pat : String) : Bool := containsChars pat.data s.data

/-- The state owned by one `startPolling` run: the chat log and the
`lastMessage` captured variable (initially `""`). -/
structure PollState where
  log : List AgentMsg
  lastMessage : String
deriving DecidableEq

/-- The progress-message handler in the poll callback (lines 772–791):
if the snapshot's message equals the last observed message, do nothing;
otherwise record it as last observed and either replace the final log line —
when that line is an agent line whose text contains `"יוצר"` ("creating") —
or append a new line (`m.slice(0, -1)` is `dropLast`). -/
def progressStep (st : PollState) (message ts : String) : PollState :=
  if message == st.lastMessage then st
  else
    let newLine : AgentMsg := ⟨"agent", message, ts⟩
    let log' :=
      match st.log.getLast? with
      | some lastMsg =>
        if lastMsg.role == "agent" && strContains lastMsg.text "יוצר" then
          st.log.dropLast ++ [newLine]
        else st.log ++ [newLine]
      | none => st.log ++ [newLine]
    { log := log', lastMessage := message }

/-- A snapshot repeating the last observed message leaves the state
untouched. -/
theorem progressStep_same (st : PollState) (ts : String) :
    progressStep st st.lastMessage ts = st := by
  simp [progressStep]

/-- A snapshot with a fresh message records it and appends or replaces
exactly one line. -/
theorem progressStep_of_ne {st : PollState} {m : String} (ts : String)
    (h : m ≠ st.lastMessage) :
    (progressStep st m ts).lastMessage = m ∧
    ((progressStep st m ts).log = st.log ++ [⟨"agent", m, ts⟩] ∨
     (progressStep st m ts).log = st.log.dropLast ++ [⟨"agent", m, ts⟩]) := by
  have hb : (m == st.lastMessage) = false := beq_eq_false_iff_ne.mpr h
  simp only [progressStep, hb, Bool.false_eq_true, if_false]
  refine ⟨trivial, ?_⟩
  cases hg : st.log.getLast? with
  | none => exact Or.inl (by simp [hg])
  | some lastMsg =>
    by_cases hcond : (lastMsg.role == "agent" && strContains lastMsg.text "יוצר") = true
    · exact Or.inr (by simp [hg, hcond])
    · exact Or.inl (by simp [hg, hcond])

/-- Claim C4.  Progress-log de-duplication: starting from any state whose log
does not yet show message `m` and whose last observed message differs from
`m`, three consecutive polls carrying `m` leave exactly one log line with
text `m` (the second and third polls change nothing); and a subsequent poll
carrying a different message `m'` appends or replaces exactly one line. -/
theorem progress_log_dedup (st : PollState) (m m' ts1 ts2 ts3 ts4 : String)
    (hm : m ≠ st.lastMessage) (hnew : ∀ l ∈ st.log, l.text ≠ m) (hm' : m' ≠ m) :
    progressStep (progressStep (progressStep st m ts1) m ts2) m ts3 =
      progressStep st m ts1 ∧
    ((progressStep st m ts1).log.filter (fun l => l.text == m)).length = 1 ∧
    ((progressStep (progressStep st m ts1) m' ts4).log =
        (progressStep st m ts1).log ++ [⟨"agent", m', ts4⟩] ∨
     (progressStep (progressStep st m ts1) m' ts4).log =
        (progressStep st m ts1).log.dropLast ++ [⟨"agent", m', ts4⟩]) := by
  obtain ⟨hlast, hshape⟩ := progressStep_of_ne ts1 hm
  refine ⟨?_, ?_, ?_⟩
  · have h2 : progressStep (progressStep st m ts1) m ts2 = progressStep st m ts1 := by
      have := progressStep_same (progressStep st m ts1) ts2
      rw [hlast] at this
      exact this
    rw [h2]
    have := progressStep_same (progressStep st m ts1) ts3
    rw [hlast] at this
    exact this
  · have hfilter : ∀ B : List AgentMsg, (∀ l ∈ B, l.text ≠ m) →
        ((B ++ [(⟨"agent", m, ts1⟩ : AgentMsg)]).filter (fun l => l.text == m)).length = 1 := by
      intro B hB
      rw [List.filter_append]
      have hBnil : B.filter (fun l => l.text == m) = [] := by
        rw [List.filter_eq_nil_iff]
        intro l hl
        simp [hB l hl]
      rw [hBnil]
      simp
    rcases hshape with hsh | hsh
    · rw [hsh]
      exact hfilter st.log hnew
    · rw [hsh]
      refine hfilter st.log.dropLast ?_
      intro l hl
      exact hnew l ((List.dropLast_sublist _).subset hl)
  · exact (progressStep_of_ne ts4 (by rw [hlast]; exact hm')).2

/-- Witness for C4 with concrete Hebrew progress messages, starting right
after the "starting to create the board" line. -/
theorem progress_log_dedup_witness :
    ("יוצר תמונה 1 מתוך 3" ≠
        (PollState.mk [⟨"agent", "מתחיל ליצור את הלוח...", "t0"⟩] "").lastMessage) ∧
    (∀ l ∈ (PollState.mk [⟨"agent", "מתחיל ליצור את הלוח...", "t0"⟩] "").log,
        l.text ≠ "יוצר תמונה 1 מתוך 3") ∧
    ("יוצר תמונה 2 מתוך 3" ≠ "יוצר תמונה 1 מתוך 3") ∧
    (progressStep (progressStep (progressStep
          (PollState.mk [⟨"agent", "מתחיל ליצור את הלוח...", "t0"⟩] "")
          "יוצר תמונה 1 מתוך 3" "t1") "יוצר תמונה 1 מתוך 3" "t2") "יוצר תמונה 1 מתוך 3" "t3" =
        progressStep (PollState.mk [⟨"agent", "מתחיל ליצור את הלוח...", "t0"⟩] "")
          "יוצר תמונה 1 מתוך 3" "t1" ∧
      ((progressStep (PollState.mk [⟨"agent", "מתחיל ליצור את הלוח...", "t0"⟩] "")
          "יוצר תמונה 1 מתוך 3" "t1").log.filter
            (fun l => l.text == "יוצר תמונה 1 מתוך 3")).length = 1 ∧
      ((progressStep (progressStep (PollState.mk
            [⟨"agent", "מתחיל ליצור את הלוח...", "t0"⟩] "") "יוצר תמונה 1 מתוך 3" "t1")
          "יוצר תמונה 2 מתוך 3" "t4").log =
          (progressStep (PollState.mk [⟨"agent", "מתחיל ליצור את הלוח...", "t0"⟩] "")
            "יוצר תמונה 1 מתוך 3" "t1").log ++ [⟨"agent", "יוצר תמונה 2 מתוך 3", "t4"⟩] ∨
       (progressStep (progressStep (PollState.mk
            [⟨"agent", "מתחיל ליצור את הלוח...", "t0"⟩] "") "יוצר תמונה 1 מתוך 3" "t1")
          "יוצר תמונה 2 מתוך 3" "t4").log =
          (progressStep (PollState.mk [⟨"agent", "מתחיל ליצור את הלוח...", "t0"⟩] "")
            "יוצר תמונה 1 מתוך 3" "t1").log.dropLast ++
            [⟨"agent", "יוצר תמונה 2 מתוך 3", "t4"⟩])) :=
  ⟨by decide, by decide, by decide,
   progress_log_dedup (PollState.mk [⟨"agent", "מתחיל ליצור את הלוח...", "t0"⟩] "")
     "יוצר תמונה 1 מתוך 3" "יוצר תמונה 2 מתוך 3" "t1" "t2" "t3" "t4"
     (by decide) (by decide) (by decide)⟩

/-! ### C3: asset binding by index correlation -/

/-- The URL built from `apiBase + "/assets/" + image_files[idx]`; an
out-of-range JS index interpolates as the string `"undefined"`. -/
def assetUrl (apiBase : String) : Option String → String
  | some f => apiBase ++ "/assets/" ++ f
  | none => apiBase ++ "/assets/" ++ "undefined"

/-- The completed-job binding (lines 799–813):
`preview.parsed.entities.forEach((entity, idx) => { imageMap[entity] =
apiBase + "/assets/" + status.assets.image_files[idx]; })`.  A JS object
assignment overwrites, modelled as function update; the empty map is the
fresh `{}`. -/
def buildImageMap (apiBase : String) (entities imageFiles : List String) :
    String → Option String :=
  (List.range entities.length).foldl
    (fun acc idx => fun k =>
      if k = entities.getD idx "" then some (assetUrl apiBase (imageFiles.get? idx)) else acc k)
    (fun _ => none)

/-- Claim C3.  Index-correlated binding: when the completed asset list has the
same length as the submitted entity list (and entities are distinct, as
object keys), the map built on completion pairs the `i`-th entity exactly
with the `i`-th asset, by index — independent of any arrival order at the
external service, since only the final snapshot's ordered list is read. -/
theorem bind_assets_by_index (apiBase : String) (entities files : List String)
    (hnd : entities.Nodup) (hlen : files.length = entities.length)
    (i : Nat) (hi : i < entities.length) :
    buildImageMap apiBase entities files (entities.getD i "") =
      some (apiBase ++ "/assets/" ++ files.getD i "") := by
  have hfile : files.get? i = some (files.getD i "") := by
    have hif : i < files.length := by omega
    simp [List.get?_eq_getElem?, List.getElem?_eq_getElem hif, List.getD_eq_getElem?_getD]
  have key : ∀ n, n ≤ entities.length → ∀ j, j < n →
      ((List.range n).foldl
        (fun acc idx => fun k =>
          if k = entities.getD idx "" then some (assetUrl apiBase (files.get? idx)) else acc k)
        (fun _ => none)) (entities.getD j "") = some (assetUrl apiBase (files.get? j)) := by
    intro n
    induction n with
    | zero => omega
    | succ n ih =>
      intro hn j hj
      rw [List.range_succ, List.foldl_append]
      simp only [List.foldl_cons, List.foldl_nil]
      by_cases hjn : j = n
      · subst hjn
        rw [if_pos rfl]
      · have hne : entities.getD j "" ≠ entities.getD n "" := by
          have hjl : j < entities.length := by omega
          have hnl : n < entities.length := by omega
          have h1 : entities.getD j "" = entities[j] := by
            simp [List.getD_eq_getElem?_getD, List.getElem?_eq_getElem hjl]
          have h2 : entities.getD n "" = entities[n] := by
            simp [List.getD_eq_getElem?_getD, List.getElem?_eq_getElem hnl]
          rw [h1, h2]
          intro hcontra
          exact hjn ((hnd.getElem_inj_iff).mp hcontra)
        rw [if_neg hne]
        exact ih (by omega) j (by omega)
  have := key entities.length (le_refl _) i hi
  rw [buildImageMap, this, hfile]
  rfl

/-- Witness for C3: entities `[x, y, z]` with assets `[a, b, c]` — the
middle entity `y` is bound to the middle asset `b`. -/
theorem bind_assets_by_index_witness :
    (["x", "y", "z"] : List String).Nodup ∧
    (["a", "b", "c"] : List String).length = (["x", "y", "z"] : List String).length ∧
    1 < (["x", "y", "z"] : List String).length ∧
    buildImageMap "" ["x", "y", "z"] ["a", "b", "c"]
        ((["x", "y", "z"] : List String).getD 1 "") =
      some ("" ++ "/assets/" ++ (["a", "b", "c"] : List String).getD 1 "") :=
  ⟨by decide, by decide, by decide,
   bind_assets_by_index "" ["x", "y", "z"] ["a", "b", "c"] (by decide) (by decide) 1 (by decide)⟩

end SchneiderCFI
